import Mathlib

/-!
# Chimera — Temporal Alignment & Lagged Correlation Discovery Engine

A shallow embedding of the Chimera pipeline (frequency normalization, master
alignment, correlation scanning, finding ranking) together with the dashboard
frontend's pure presentation logic (`src/frontend/js/app.js`).

The alignment and correlation Lambdas (`process_alignment.py`,
`analyze_correlations.py`) are described by the repository's documentation
(`src/unnamed/part_004`, `src/phase3-docs/01_correlation_engine.md`) but their
Python source is not part of the repository; those components are modelled
from the specification, as flagged on each definition.

Timestamps are UTC instants measured in hours, embedded as rationals; grid
instants are hour-aligned. Numeric values are rationals, and a missing value
is `Option.none`. The Pearson coefficient `r` is carried in the signed-square
representation `r * |r|`, which is exact over `ℚ` (no square roots); the map
`r ↦ r * |r|` is strictly monotone, so every comparison and equality between
coefficients corresponds exactly to the same comparison between their
signed squares, and the threshold gate `|r| ≥ θ` becomes `|r*|r|| ≥ θ²`.
-/

namespace Chimera

/-- A raw sample: `(timestamp in hours, value)`. -/
abbrev Sample := ℚ × ℚ

/-- Modelled from the spec: `RawSeries` (§3) with one declared column per
series (a multi-column source is a list of these, one per column); `samples`
is the ordered `(timestamp, value)` sequence, sorted on read by the loader. -/
structure RawSeries where
  sourceId : String
  columnId : String
  samples : List Sample
  deriving DecidableEq, Repr

/-- Timestamps are monotonically non-decreasing (loader sorts on read). -/
def SortedTs (l : List Sample) : Prop :=
  l.Pairwise (fun p q => p.1 ≤ q.1)

/-- Modelled from the spec: the fill policies of the Frequency Normalizer
(§4.2), selected per source. -/
inductive FillPolicy where
  | forwardFill
  | meanAggregate
  deriving DecidableEq, Repr

/-- Modelled from the spec: ForwardFill at one grid hour — the most recent
sample at or before `h`, missing if none exists yet (§4.2). Implemented as a
left fold over the sample list, carrying the last value seen so far. -/
def ffillAt (samples : List Sample) (h : ℚ) : Option ℚ :=
  samples.foldl (fun acc p => if p.1 ≤ h then some p.2 else acc) none

/-- Modelled from the spec: MeanAggregate at one grid hour — the average of
all raw samples whose timestamp falls within `[h, h+1)`, missing when the
window is empty (§4.2). Implemented as a running `(sum, count)` accumulator;
every sample in the window is one term of the average, so duplicate
timestamps each count once and are never double-weighted. -/
def meanAggAt (samples : List Sample) (h : ℚ) : Option ℚ :=
  let sc := samples.foldl
    (fun (acc : ℚ × ℕ) p =>
      if h ≤ p.1 ∧ p.1 < h + 1 then (acc.1 + p.2, acc.2 + 1) else acc)
    (0, 0)
  if sc.2 = 0 then none else some (sc.1 / (sc.2 : ℚ))

/-- Modelled from the spec: `normalize(series, grid, policy)` (§4.2) —
one aligned value per grid hour. -/
def normalize (samples : List Sample) (grid : List ℚ) (policy : FillPolicy) :
    List (Option ℚ) :=
  grid.map (fun h =>
    match policy with
    | .forwardFill => ffillAt samples h
    | .meanAggregate => meanAggAt samples h)

/-- First sample timestamp of a series, if any. -/
def firstTs (s : RawSeries) : Option ℚ :=
  s.samples.head?.map Prod.fst

/-- Last sample timestamp of a series, if any. -/
def lastTs (s : RawSeries) : Option ℚ :=
  s.samples.getLast?.map Prod.fst

/-- Greatest element of a list of rationals, `none` when empty. -/
def listMax? : List ℚ → Option ℚ
  | [] => none
  | x :: xs => some ((listMax? xs).elim x (fun m => max x m))

/-- Least element of a list of rationals, `none` when empty. -/
def listMin? : List ℚ → Option ℚ
  | [] => none
  | x :: xs => some ((listMin? xs).elim x (fun m => min x m))

/-- Sequence a list of optional values, `none` as soon as one is missing. -/
def allSome : List (Option ℚ) → Option (List ℚ)
  | [] => some []
  | none :: _ => none
  | some x :: os => (allSome os).map (fun xs => x :: xs)

/-- Modelled from the spec: the common range of the HourlyGrid (§3) —
`start` = max over sources of the first timestamp, `end` = min over sources
of the last timestamp; `none` when there are no sources or some source has
no samples. -/
def computeRange (sources : List RawSeries) : Option (ℚ × ℚ) :=
  match allSome (sources.map firstTs), allSome (sources.map lastTs) with
  | some firsts, some lasts =>
    match listMax? firsts, listMin? lasts with
    | some s, some e => some (s, e)
    | _, _ => none
  | _, _ => none

/-- Modelled from the spec: the HourlyGrid points (§3) — hour-aligned
instants `s, s+1, …` up to `e` inclusive, empty when `s > e`. -/
def gridPoints (s e : ℚ) : List ℚ :=
  (List.range (if s ≤ e then ⌊e - s⌋.toNat + 1 else 0)).map
    (fun k : ℕ => s + (k : ℚ))

/-- Modelled from the spec: `AlignedColumn` (§3) — a column id plus values
aligned 1:1 with the grid, missing markers explicit. -/
structure AlignedColumn where
  columnId : String
  sourceId : String
  values : List (Option ℚ)
  deriving DecidableEq, Repr

/-- Modelled from the spec: `MasterTable` (§3). -/
structure MasterTable where
  grid : List ℚ
  columns : List AlignedColumn
  deriving DecidableEq, Repr

/-- Modelled from the spec: the error taxonomy relevant to alignment (§7). -/
inductive AlignError where
  | insufficientOverlap
  | sourceUnavailable
  deriving DecidableEq, Repr

/-- Modelled from the spec: `align` (§4.3) — compute the grid from the
intersected range, fail with `InsufficientOverlap` when `start > end` or when
the range yields fewer than `minPoints` hourly points (default 24), otherwise
normalize every source onto the grid. -/
def align (sources : List (RawSeries × FillPolicy)) (minPoints : ℕ) :
    Except AlignError MasterTable :=
  match computeRange (sources.map Prod.fst) with
  | none => .error .sourceUnavailable
  | some (s, e) =>
    if e < s ∨ (gridPoints s e).length < minPoints then
      .error .insufficientOverlap
    else
      .ok { grid := gridPoints s e
            columns := sources.map (fun sp =>
              { columnId := sp.1.columnId
                sourceId := sp.1.sourceId
                values := normalize sp.1.samples (gridPoints s e) sp.2 }) }

/-- The first components of a paired sample. -/
def fsts (s : List (ℚ × ℚ)) : List ℚ := s.map Prod.fst

/-- The second components of a paired sample. -/
def snds (s : List (ℚ × ℚ)) : List ℚ := s.map Prod.snd

/-- Sample mean (0 on the empty list, which is guarded out before use). -/
def mean (l : List ℚ) : ℚ := l.sum / (l.length : ℚ)

/-- The list re-centered at its mean. -/
def centered (l : List ℚ) : List ℚ := l.map (fun x => x - mean l)

/-- Pointwise product sum of two lists. -/
def dot (a b : List ℚ) : ℚ := (List.zipWith (fun x y => x * y) a b).sum

/-- Modelled from the spec: sample covariance over the overlap with the `n`
divisor (§4.4 step 3 — the same `n` divisor is used in the covariance and in
both variances so it cancels in the coefficient). -/
def covL (xs ys : List ℚ) : ℚ := dot (centered xs) (centered ys) / (xs.length : ℚ)

/-- Sample variance with the `n` divisor. -/
def varL (xs : List ℚ) : ℚ := covL xs xs

/-- Modelled from the spec: the sample Pearson coefficient of a paired
sample (§4.4 steps d and 3), in the exact signed-square representation
`r * |r| = cov * |cov| / (var x * var y)`; `none` when the sample is empty or
either series has zero variance (the `DegenerateSeries` discard). Since
`r ↦ r * |r|` is strictly monotone, this determines `r` uniquely and maps
the gate `|r| ≥ θ` to `|r * |r|| ≥ θ²`. -/
def pearsonSgnSq (s : List (ℚ × ℚ)) : Option ℚ :=
  if s.length = 0 ∨ varL (fsts s) = 0 ∨ varL (snds s) = 0 then none
  else some (covL (fsts s) (snds s) * |covL (fsts s) (snds s)| /
    (varL (fsts s) * varL (snds s)))

/-- Modelled from the spec: the lag-shifted overlap (§4.4 steps a–b) — pair
`env[t]` with `market[t+lag]` and keep exactly the positions where both are
non-missing after the shift. Each kept pair is `(env value, market value)`. -/
def shiftedPairs (market env : List (Option ℚ)) (lag : ℕ) : List (ℚ × ℚ) :=
  (env.zip (market.drop lag)).filterMap (fun p =>
    match p with
    | (some a, some b) => some (a, b)
    | _ => none)

/-- Modelled from the spec: the kind of a finding (§3). -/
inductive FindingKind where
  | instant
  | lagged
  deriving DecidableEq, Repr

/-- Modelled from the spec: `CorrelationFinding` (§3), with the coefficient
carried as its signed square `coeffSq = r * |r|`. -/
structure Finding where
  marketColumn : String
  envColumn : String
  lagHours : ℕ
  coeffSq : ℚ
  sampleSize : ℕ
  kind : FindingKind
  deriving DecidableEq, Repr

/-- Modelled from the spec: the Scanner configuration (§4.4, §6); `threshold`
gates `|r|`, so the signed-square gate compares against `threshold ^ 2`. -/
structure ScanConfig where
  threshold : ℚ
  minSampleSize : ℕ
  lags : List ℕ
  deriving DecidableEq, Repr

/-- Modelled from the spec: one (pair, lag) step of the Scanner (§4.4 steps
a–e): build the shifted overlap, discard when the sample is too small, when
either series is degenerate, or when the coefficient misses the threshold;
otherwise emit a finding, `instant` exactly at lag 0. -/
def scanPair (m e : AlignedColumn) (lag : ℕ) (threshold : ℚ)
    (minSample : ℕ) : Option Finding :=
  if (shiftedPairs m.values e.values lag).length < minSample then none
  else
    match pearsonSgnSq (shiftedPairs m.values e.values lag) with
    | none => none
    | some c =>
      if threshold ^ 2 ≤ |c| then
        some { marketColumn := m.columnId
               envColumn := e.columnId
               lagHours := lag
               coeffSq := c
               sampleSize := (shiftedPairs m.values e.values lag).length
               kind := if lag = 0 then .instant else .lagged }
      else none

/-- Whether a column id lives in the `market_*` namespace: the characters
of `"market_"` are a prefix of the id's characters (§4.4 step 1). -/
def isMarketColumn (c : AlignedColumn) : Bool :=
  "market_".data.isPrefixOf c.columnId.data

/-- Market columns: namespace `market_*` (§4.4 step 1). -/
def marketCols (t : MasterTable) : List AlignedColumn :=
  t.columns.filter isMarketColumn

/-- Environmental columns: everything else (§4.4 step 1). -/
def envCols (t : MasterTable) : List AlignedColumn :=
  t.columns.filter (fun c => ! isMarketColumn c)

/-- Modelled from the spec: `scan(table, config)` (§4.4) — every
(market, env) pair and every configured lag, in configuration order. -/
def scan (t : MasterTable) (cfg : ScanConfig) : List Finding :=
  (marketCols t).flatMap (fun m =>
    (envCols t).flatMap (fun e =>
      cfg.lags.filterMap (fun lag =>
        scanPair m e lag cfg.threshold cfg.minSampleSize)))

/-- Modelled from the spec: the Ranker's order (§4.5) — descending
`|coefficient|` (equivalently descending `|coeffSq|`, since squaring is
monotone on absolute values), ties by ascending `lag_hours`, then by
column-id lexical order. -/
def findingRel (f g : Finding) : Prop :=
  |g.coeffSq| < |f.coeffSq| ∨
    (|f.coeffSq| = |g.coeffSq| ∧
      (f.lagHours < g.lagHours ∨
        (f.lagHours = g.lagHours ∧
          (f.marketColumn < g.marketColumn ∨
            (f.marketColumn = g.marketColumn ∧ f.envColumn ≤ g.envColumn)))))

instance : DecidableRel findingRel := fun f g => by
  unfold findingRel; infer_instance

instance : IsTotal Finding findingRel where
  total f g := by
    unfold findingRel
    rcases lt_trichotomy |f.coeffSq| |g.coeffSq| with h | h | h
    · exact Or.inr (Or.inl h)
    · rcases lt_trichotomy f.lagHours g.lagHours with h2 | h2 | h2
      · exact Or.inl (Or.inr ⟨h, Or.inl h2⟩)
      · rcases lt_trichotomy f.marketColumn g.marketColumn with h3 | h3 | h3
        · exact Or.inl (Or.inr ⟨h, Or.inr ⟨h2, Or.inl h3⟩⟩)
        · rcases le_total f.envColumn g.envColumn with h4 | h4
          · exact Or.inl (Or.inr ⟨h, Or.inr ⟨h2, Or.inr ⟨h3, h4⟩⟩⟩)
          · exact Or.inr (Or.inr ⟨h.symm, Or.inr ⟨h2.symm, Or.inr ⟨h3.symm, h4⟩⟩⟩)
        · exact Or.inr (Or.inr ⟨h.symm, Or.inr ⟨h2.symm, Or.inl h3⟩⟩)
      · exact Or.inr (Or.inr ⟨h.symm, Or.inl h2⟩)
    · exact Or.inl (Or.inl h)

instance : IsTrans Finding findingRel where
  trans f g k hfg hgk := by
    unfold findingRel at *
    rcases hfg with h1 | ⟨e1, h1⟩
    · rcases hgk with h2 | ⟨e2, h2⟩
      · exact Or.inl (h2.trans h1)
      · exact Or.inl (e2 ▸ h1)
    · rcases hgk with h2 | ⟨e2, h2⟩
      · exact Or.inl (e1 ▸ h2)
      · refine Or.inr ⟨e1.trans e2, ?_⟩
        rcases h1 with h1 | ⟨l1, h1⟩
        · rcases h2 with h2 | ⟨l2, h2⟩
          · exact Or.inl (h1.trans h2)
          · exact Or.inl (l2 ▸ h1)
        · rcases h2 with h2 | ⟨l2, h2⟩
          · exact Or.inl (l1 ▸ h2)
          · refine Or.inr ⟨l1.trans l2, ?_⟩
            rcases h1 with h1 | ⟨m1, h1⟩
            · rcases h2 with h2 | ⟨m2, h2⟩
              · exact Or.inl (h1.trans h2)
              · exact Or.inl (m2 ▸ h1)
            · rcases h2 with h2 | ⟨m2, h2⟩
              · exact Or.inl (m1 ▸ h2)
              · exact Or.inr ⟨m1.trans m2, h1.trans h2⟩

/-- Modelled from the spec: `rank(findings)` (§4.5) — a deterministic sort
by `findingRel`. -/
def rank (fs : List Finding) : List Finding :=
  fs.insertionSort findingRel

/-- The Scanner followed by the Ranker. -/
def scanAndRank (t : MasterTable) (cfg : ScanConfig) : List Finding :=
  rank (scan t cfg)

/-! ## Dashboard frontend (`src/frontend/js/app.js`) -/

/-- From `app.js` `CONFIG.maxActivityItems` (line 13). -/
def maxActivityItems : ℕ := 50

/-- An activity-log entry, as built by `logActivity`: `{ time, message }`. -/
structure ActivityEntry where
  time : String
  message : String
  deriving DecidableEq, Repr

/-- From `app.js` `logActivity` (lines 84–91): `unshift` the new entry at
the front, then `pop` one entry from the back when the length exceeds
`CONFIG.maxActivityItems`. -/
def logActivity (log : List ActivityEntry) (e : ActivityEntry) :
    List ActivityEntry :=
  let l := e :: log
  if maxActivityItems < l.length then l.dropLast else l

/-- From `app.js` `getStrengthLabel` (lines 492–498); returns the label
string, the CSS class being determined by the same branch. -/
def getStrengthLabel (r : ℚ) : String :=
  if 7/10 ≤ |r| then "Very Strong"
  else if 1/2 ≤ |r| then "Strong"
  else if 2/5 ≤ |r| then "Moderate"
  else "Weak"

/-- From `app.js` `renderCorrelations` (line 446):
`c.correlation > 0 ? 'positive' : 'negative'`. -/
def directionOf (r : ℚ) : String :=
  if 0 < r then "positive" else "negative"

/-- From `app.js` `renderCorrelations` (line 454): the predictive badge is
shown exactly when `c.lag_hours > 0`, otherwise the footer labels the
finding as real-time/concurrent. -/
def predictiveBadge (lagHours : ℕ) : Bool :=
  0 < lagHours

/-! ## Helper lemmas -/

/-- `logActivity` on a log within capacity keeps the newest 50 entries. -/
lemma logActivity_eq_take (l : List ActivityEntry) (e : ActivityEntry)
    (h : l.length ≤ maxActivityItems) :
    logActivity l e = (e :: l).take maxActivityItems := by
  unfold logActivity
  by_cases hlen : maxActivityItems < (e :: l).length
  · simp only [hlen, if_true]
    have hlen50 : (e :: l).length = maxActivityItems + 1 := by
      simp only [List.length_cons] at *
      omega
    rw [List.dropLast_eq_take, hlen50]
    norm_num
  · simp only [hlen, if_false]
    exact (List.take_of_length_le (by omega)).symm

/-- Taking `n` from an append whose tail is already truncated at `n`. -/
lemma take_append_take (xs ys : List ActivityEntry) (n : ℕ) :
    (xs ++ ys.take n).take n = (xs ++ ys).take n := by
  rw [List.take_append_eq_append_take, List.take_append_eq_append_take,
    List.take_take, Nat.min_eq_left (Nat.sub_le n xs.length)]

/-- Folding `logActivity` from a log within capacity keeps the newest 50. -/
lemma foldl_logActivity (msgs : List ActivityEntry) :
    ∀ l : List ActivityEntry, l.length ≤ maxActivityItems →
      msgs.foldl logActivity l = (msgs.reverse ++ l).take maxActivityItems := by
  induction msgs with
  | nil =>
    intro l hl
    simp [List.take_of_length_le hl]
  | cons m ms ih =>
    intro l hl
    have hstep : logActivity l m = (m :: l).take maxActivityItems :=
      logActivity_eq_take l m hl
    have hlen : (logActivity l m).length ≤ maxActivityItems := by
      rw [hstep]; exact List.length_take_le _ _
    calc (m :: ms).foldl logActivity l
        = ms.foldl logActivity (logActivity l m) := rfl
      _ = (ms.reverse ++ logActivity l m).take maxActivityItems := ih _ hlen
      _ = (ms.reverse ++ (m :: l).take maxActivityItems).take maxActivityItems := by
          rw [hstep]
      _ = (ms.reverse ++ (m :: l)).take maxActivityItems := take_append_take ..
      _ = ((m :: ms).reverse ++ l).take maxActivityItems := by
          simp

/-! ## Claims -/

/-- C10: the dashboard activity log never exceeds `CONFIG.maxActivityItems`
(= 50) entries: `logActivity` prepends the new entry and pops one entry from
the back exactly when the length would exceed 50, so after any sequence of
calls starting from the empty log the log is the 50 most recent entries in
newest-first order. -/
theorem activity_log_capacity :
    ∀ msgs : List ActivityEntry,
      msgs.foldl logActivity [] = msgs.reverse.take maxActivityItems ∧
      (msgs.foldl logActivity []).length ≤ maxActivityItems := by
  intro msgs
  constructor
  · simpa using foldl_logActivity msgs [] (by simp [maxActivityItems])
  · rw [foldl_logActivity msgs [] (by simp [maxActivityItems])]
    exact List.length_take_le _ _

/-- C6: `getStrengthLabel` classifies a finding by absolute coefficient into
the bands `[0.7,1]` → Very Strong, `[0.5,0.7)` → Strong, `[0.4,0.5)` →
Moderate, else Weak; `renderCorrelations` derives the direction from the sign
of the coefficient (`positive` exactly when it is `> 0`, `negative` exactly
when `< 0`, for the nonzero coefficients that pass the Scanner's threshold)
and shows the predictive badge exactly when `lag_hours > 0`, labelling lag-0
findings as real-time/concurrent. -/
theorem strength_direction_classification (r : ℚ) (lagHours : ℕ) :
    (7/10 ≤ |r| → getStrengthLabel r = "Very Strong") ∧
    (1/2 ≤ |r| → |r| < 7/10 → getStrengthLabel r = "Strong") ∧
    (2/5 ≤ |r| → |r| < 1/2 → getStrengthLabel r = "Moderate") ∧
    (|r| < 2/5 → getStrengthLabel r = "Weak") ∧
    (0 < r → directionOf r = "positive") ∧
    (r < 0 → directionOf r = "negative") ∧
    (predictiveBadge lagHours = true ↔ 0 < lagHours) := by
  unfold getStrengthLabel directionOf predictiveBadge
  refine ⟨?_, ?_, ?_, ?_, ?_, ?_, by simp⟩ <;>
    intros <;> split_ifs <;> first | rfl | linarith

/-- Witness for C6 at the concrete coefficient `4/5` (very strong,
positive) and lag 2 (predictive). -/
theorem strength_direction_classification_witness :
    (7/10 ≤ |(4/5 : ℚ)| → getStrengthLabel (4/5) = "Very Strong") ∧
    (1/2 ≤ |(4/5 : ℚ)| → |(4/5 : ℚ)| < 7/10 →
      getStrengthLabel (4/5) = "Strong") ∧
    (2/5 ≤ |(4/5 : ℚ)| → |(4/5 : ℚ)| < 1/2 →
      getStrengthLabel (4/5) = "Moderate") ∧
    (|(4/5 : ℚ)| < 2/5 → getStrengthLabel (4/5) = "Weak") ∧
    (0 < (4/5 : ℚ) → directionOf (4/5) = "positive") ∧
    ((4/5 : ℚ) < 0 → directionOf (4/5) = "negative") ∧
    (predictiveBadge 2 = true ↔ 0 < 2) :=
  strength_direction_classification (4/5) 2

/-- The forward-fill fold leaves the accumulator untouched when no sample is
at or before `h`. -/
lemma ffill_fold_of_none (h : ℚ) :
    ∀ (samples : List Sample) (acc : Option ℚ),
      (∀ p ∈ samples, ¬ p.1 ≤ h) →
      samples.foldl (fun a p => if p.1 ≤ h then some p.2 else a) acc = acc := by
  intro samples
  induction samples with
  | nil => intro acc _; rfl
  | cons p ps ih =>
    intro acc hall
    have hp : ¬ p.1 ≤ h := hall p (List.mem_cons_self p ps)
    simp only [List.foldl_cons, hp, if_false]
    exact ih acc (fun q hq => hall q (List.mem_cons_of_mem p hq))

/-- The forward-fill fold forgets its accumulator as soon as some sample is
at or before `h`. -/
lemma ffill_fold_congr (h : ℚ) :
    ∀ (samples : List Sample) (acc acc' : Option ℚ),
      (∃ p ∈ samples, p.1 ≤ h) →
      samples.foldl (fun a p => if p.1 ≤ h then some p.2 else a) acc =
        samples.foldl (fun a p => if p.1 ≤ h then some p.2 else a) acc' := by
  intro samples
  induction samples with
  | nil => intro _ _ hex; simp at hex
  | cons p ps ih =>
    intro acc acc' hex
    by_cases hp : p.1 ≤ h
    · simp only [List.foldl_cons, hp, if_true]
    · simp only [List.foldl_cons, hp, if_false]
      rcases hex with ⟨q, hq, hqle⟩
      rcases List.mem_cons.mp hq with rfl | hq'
      · exact absurd hqle hp
      · exact ih acc acc' ⟨q, hq', hqle⟩

/-- On a sorted sample list, forward fill returns the most recent sample at
or before the grid hour. -/
lemma ffillAt_most_recent (samples : List Sample) (h : ℚ)
    (hs : SortedTs samples) (hex0 : ∃ p ∈ samples, p.1 ≤ h) :
    ∃ q ∈ samples, q.1 ≤ h ∧
      (∀ x ∈ samples, x.1 ≤ h → x.1 ≤ q.1) ∧
      ffillAt samples h = some q.2 := by
  induction samples with
  | nil => simp at hex0
  | cons a ps ih =>
    have hhead : ∀ x ∈ ps, a.1 ≤ x.1 := by
      intro x hx
      exact (List.pairwise_cons.mp hs).1 x hx
    have htail : SortedTs ps := (List.pairwise_cons.mp hs).2
    by_cases hex : ∃ x ∈ ps, x.1 ≤ h
    · rcases ih htail hex with ⟨q, hqmem, hqle, hqmax, hqeq⟩
      rcases hex with ⟨x, hx, hxle⟩
      refine ⟨q, List.mem_cons_of_mem a hqmem, hqle, ?_, ?_⟩
      · intro y hy hyle
        rcases List.mem_cons.mp hy with rfl | hy'
        · exact le_trans (hhead q hqmem) (le_refl q.1)
        · exact hqmax y hy' hyle
      · show (a :: ps).foldl _ none = some q.2
        simp only [List.foldl_cons]
        rw [ffill_fold_congr h ps _ none ⟨x, hx, hxle⟩]
        exact hqeq
    · push_neg at hex
      have ha : a.1 ≤ h := by
        rcases hex0 with ⟨p, hp, hple⟩
        rcases List.mem_cons.mp hp with rfl | hp'
        · exact hple
        · exact absurd hple (not_le_of_lt (hex p hp'))
      refine ⟨a, List.mem_cons_self a ps, ha, ?_, ?_⟩
      · intro y hy hyle
        rcases List.mem_cons.mp hy with rfl | hy'
        · exact le_refl _
        · exact absurd hyle (not_le_of_lt (hex y hy'))
      · show (a :: ps).foldl _ none = some a.2
        simp only [List.foldl_cons, ha, if_true]
        exact ffill_fold_of_none h ps (some a.2)
          (fun q hq => not_le_of_lt (hex q hq))

/-- C4: under the ForwardFill policy, each grid hour receives the value of
the most recent raw sample at or before that hour, and every grid position
strictly before the series' first sample time is an explicit missing marker —
forward fill never extrapolates backward before the data's first true
sample. -/
theorem forward_fill_semantics (samples : List Sample) (grid : List ℚ)
    (i : ℕ) (h : ℚ) (hs : SortedTs samples) :
    (grid[i]? = some h →
      (normalize samples grid .forwardFill)[i]? = some (ffillAt samples h)) ∧
    ((∀ p ∈ samples, h < p.1) → ffillAt samples h = none) ∧
    (∀ p ∈ samples, p.1 ≤ h →
      ∃ q ∈ samples, q.1 ≤ h ∧
        (∀ x ∈ samples, x.1 ≤ h → x.1 ≤ q.1) ∧
        ffillAt samples h = some q.2) := by
  refine ⟨?_, ?_, ?_⟩
  · intro hg
    simp [normalize, List.getElem?_map, hg]
  · intro hall
    exact ffill_fold_of_none h samples none
      (fun p hp => not_le_of_lt (hall p hp))
  · intro p hmem hle
    exact ffillAt_most_recent samples h hs ⟨p, hmem, hle⟩

/-- Witness for C4 at a concrete sorted series: samples at hours 0 and 2,
queried at grid hour 1 (between the samples) on the one-point grid `[1]`. -/
theorem forward_fill_semantics_witness :
    (([(1 : ℚ)] : List ℚ)[0]? = some 1 →
      (normalize [((0 : ℚ), (5 : ℚ)), (2, 7)] [1] .forwardFill)[0]? =
        some (ffillAt [((0 : ℚ), (5 : ℚ)), (2, 7)] 1)) ∧
    ((∀ p ∈ [((0 : ℚ), (5 : ℚ)), (2, 7)], (1 : ℚ) < p.1) →
      ffillAt [((0 : ℚ), (5 : ℚ)), (2, 7)] 1 = none) ∧
    (∀ p ∈ [((0 : ℚ), (5 : ℚ)), (2, 7)], p.1 ≤ 1 →
      ∃ q ∈ [((0 : ℚ), (5 : ℚ)), (2, 7)], q.1 ≤ 1 ∧
        (∀ x ∈ [((0 : ℚ), (5 : ℚ)), (2, 7)], x.1 ≤ 1 → x.1 ≤ q.1) ∧
        ffillAt [((0 : ℚ), (5 : ℚ)), (2, 7)] 1 = some q.2) :=
  forward_fill_semantics [((0 : ℚ), (5 : ℚ)), (2, 7)] [1] 0 1 (by
    unfold SortedTs
    norm_num)

/-- The window of an hour: the raw samples with timestamp in `[h, h+1)`. -/
def window (samples : List Sample) (h : ℚ) : List Sample :=
  samples.filter (fun p => decide (h ≤ p.1 ∧ p.1 < h + 1))

/-- The mean-aggregate fold accumulates exactly the sum and the count of the
window, each in-window sample contributing one term. -/
lemma meanAgg_fold (h : ℚ) :
    ∀ (samples : List Sample) (acc : ℚ × ℕ),
      samples.foldl
        (fun (acc : ℚ × ℕ) p =>
          if h ≤ p.1 ∧ p.1 < h + 1 then (acc.1 + p.2, acc.2 + 1) else acc)
        acc =
      (acc.1 + ((window samples h).map Prod.snd).sum,
        acc.2 + (window samples h).length) := by
  intro samples
  induction samples with
  | nil => intro acc; simp [window]
  | cons p ps ih =>
    intro acc
    by_cases hp : h ≤ p.1 ∧ p.1 < h + 1
    · have hw : window (p :: ps) h = p :: window ps h := by
        simp [window, List.filter_cons, hp]
      rw [List.foldl_cons, if_pos hp, ih, hw]
      simp only [List.map_cons, List.sum_cons, List.length_cons,
        Prod.mk.injEq]
      constructor
      · ring
      · omega
    · have hw : window (p :: ps) h = window ps h := by
        simp [window, List.filter_cons, hp]
      rw [List.foldl_cons, if_neg hp, ih, hw]

/-- `meanAggAt` in terms of the window. -/
lemma meanAggAt_eq_window (samples : List Sample) (h : ℚ) :
    meanAggAt samples h =
      if (window samples h).length = 0 then none
      else some (((window samples h).map Prod.snd).sum /
        ((window samples h).length : ℚ)) := by
  unfold meanAggAt
  rw [meanAgg_fold h samples (0, 0)]
  simp

/-- C8: under the MeanAggregate policy, each grid hour averages exactly the
raw samples whose timestamp falls within `[hour, hour+1)`; every in-window
sample — including samples sharing a duplicate timestamp — contributes
exactly one term to the average, a window with exactly one sample yields
exactly that sample's value, and an empty window yields a missing marker. -/
theorem mean_aggregate_window_semantics (samples : List Sample)
    (grid : List ℚ) (i : ℕ) (h : ℚ) :
    (grid[i]? = some h →
      (normalize samples grid .meanAggregate)[i]? =
        some (meanAggAt samples h)) ∧
    (window samples h = [] → meanAggAt samples h = none) ∧
    (window samples h ≠ [] →
      meanAggAt samples h =
        some (((window samples h).map Prod.snd).sum /
          ((window samples h).length : ℚ))) ∧
    (∀ t v, window samples h = [(t, v)] → meanAggAt samples h = some v) := by
  refine ⟨?_, ?_, ?_, ?_⟩
  · intro hg
    simp [normalize, List.getElem?_map, hg]
  · intro hw
    rw [meanAggAt_eq_window, hw]
    simp
  · intro hw
    rw [meanAggAt_eq_window]
    simp [List.length_eq_zero.not.mpr hw]
  · intro t v hw
    rw [meanAggAt_eq_window, hw]
    norm_num

/-- Witness for C8: a series with two samples at the duplicate timestamp
`1/4` plus one out-of-window sample, aggregated at grid hour 0 on the grid
`[0]` — the window is exactly the two in-window samples. -/
theorem mean_aggregate_window_semantics_witness :
    (([(0 : ℚ)] : List ℚ)[0]? = some 0 →
      (normalize [((1 : ℚ)/4, (10 : ℚ)), (1/4, 20), (2, 99)] [0]
          .meanAggregate)[0]? =
        some (meanAggAt [((1 : ℚ)/4, (10 : ℚ)), (1/4, 20), (2, 99)] 0)) ∧
    (window [((1 : ℚ)/4, (10 : ℚ)), (1/4, 20), (2, 99)] 0 = [] →
      meanAggAt [((1 : ℚ)/4, (10 : ℚ)), (1/4, 20), (2, 99)] 0 = none) ∧
    (window [((1 : ℚ)/4, (10 : ℚ)), (1/4, 20), (2, 99)] 0 ≠ [] →
      meanAggAt [((1 : ℚ)/4, (10 : ℚ)), (1/4, 20), (2, 99)] 0 =
        some (((window [((1 : ℚ)/4, (10 : ℚ)), (1/4, 20), (2, 99)] 0).map
            Prod.snd).sum /
          ((window [((1 : ℚ)/4, (10 : ℚ)), (1/4, 20), (2, 99)] 0).length :
            ℚ))) ∧
    (∀ t v, window [((1 : ℚ)/4, (10 : ℚ)), (1/4, 20), (2, 99)] 0 = [(t, v)] →
      meanAggAt [((1 : ℚ)/4, (10 : ℚ)), (1/4, 20), (2, 99)] 0 = some v) :=
  mean_aggregate_window_semantics [((1 : ℚ)/4, (10 : ℚ)), (1/4, 20), (2, 99)]
    [0] 0 0

/-- A sequenced list of options is the list of its values. -/
lemma allSome_eq_some :
    ∀ (l : List (Option ℚ)) (xs : List ℚ),
      allSome l = some xs → l = xs.map some := by
  intro l
  induction l with
  | nil => intro xs h; simp [allSome] at h; simp [← h]
  | cons o os ih =>
    intro xs h
    cases o with
    | none => simp [allSome] at h
    | some x =>
      unfold allSome at h
      obtain ⟨ys, hys, rfl⟩ := Option.map_eq_some'.mp h
      simp [ih ys hys]

/-- Sequencing succeeds when every entry is present. -/
lemma allSome_of_forall :
    ∀ l : List (Option ℚ), (∀ o ∈ l, o.isSome) →
      ∃ xs, allSome l = some xs := by
  intro l
  induction l with
  | nil => intro _; exact ⟨[], rfl⟩
  | cons o os ih =>
    intro hall
    obtain ⟨x, hx⟩ := Option.isSome_iff_exists.mp
      (hall o (List.mem_cons_self o os))
    obtain ⟨xs, hxs⟩ := ih (fun p hp => hall p (List.mem_cons_of_mem o hp))
    subst hx
    exact ⟨x :: xs, by simp [allSome, hxs]⟩

/-- The greatest element is an element. -/
lemma listMax?_mem : ∀ (l : List ℚ) (m : ℚ), listMax? l = some m → m ∈ l := by
  intro l
  induction l with
  | nil => intro m h; simp [listMax?] at h
  | cons x xs ih =>
    intro m h
    unfold listMax? at h
    rcases hxs : listMax? xs with _ | m'
    · rw [hxs] at h
      simp at h
      simp [← h]
    · rw [hxs] at h
      simp at h
      rcases max_choice x m' with hm | hm
    -- m = max x m' is either x or the max of the tail
      · rw [← h, hm]
        simp
      · rw [← h, hm]
        exact List.mem_cons_of_mem x (ih m' hxs)

/-- The greatest element bounds every element. -/
lemma listMax?_ub :
    ∀ (l : List ℚ) (m : ℚ), listMax? l = some m → ∀ x ∈ l, x ≤ m := by
  intro l
  induction l with
  | nil => intro m h; simp [listMax?] at h
  | cons x xs ih =>
    intro m h y hy
    unfold listMax? at h
    rcases hxs : listMax? xs with _ | m'
    · rw [hxs] at h
      simp at h
      have hnil : xs = [] := by
        cases xs with
        | nil => rfl
        | cons z zs => simp [listMax?] at hxs
      subst hnil
      rcases List.mem_singleton.mp hy with rfl
      exact le_of_eq h
    · rw [hxs] at h
      simp at h
      rcases List.mem_cons.mp hy with rfl | hy'
      · rw [← h]; exact le_max_left y m'
      · rw [← h]; exact le_trans (ih m' hxs y hy') (le_max_right x m')

/-- The least element is an element. -/
lemma listMin?_mem : ∀ (l : List ℚ) (m : ℚ), listMin? l = some m → m ∈ l := by
  intro l
  induction l with
  | nil => intro m h; simp [listMin?] at h
  | cons x xs ih =>
    intro m h
    unfold listMin? at h
    rcases hxs : listMin? xs with _ | m'
    · rw [hxs] at h
      simp at h
      simp [← h]
    · rw [hxs] at h
      simp at h
      rcases min_choice x m' with hm | hm
      · rw [← h, hm]
        simp
      · rw [← h, hm]
        exact List.mem_cons_of_mem x (ih m' hxs)

/-- The least element bounds every element from below. -/
lemma listMin?_lb :
    ∀ (l : List ℚ) (m : ℚ), listMin? l = some m → ∀ x ∈ l, m ≤ x := by
  intro l
  induction l with
  | nil => intro m h; simp [listMin?] at h
  | cons x xs ih =>
    intro m h y hy
    unfold listMin? at h
    rcases hxs : listMin? xs with _ | m'
    · rw [hxs] at h
      simp at h
      have hnil : xs = [] := by
        cases xs with
        | nil => rfl
        | cons z zs => simp [listMin?] at hxs
      subst hnil
      rcases List.mem_singleton.mp hy with rfl
      exact le_of_eq h.symm
    · rw [hxs] at h
      simp at h
      rcases List.mem_cons.mp hy with rfl | hy'
      · rw [← h]; exact min_le_left y m'
      · rw [← h]; exact le_trans (min_le_right x m') (ih m' hxs y hy')

/-- A non-empty list has a greatest element. -/
lemma listMax?_isSome (l : List ℚ) (h : l ≠ []) :
    ∃ m, listMax? l = some m := by
  cases l with
  | nil => exact absurd rfl h
  | cons x xs => exact ⟨_, rfl⟩

/-- A non-empty list has a least element. -/
lemma listMin?_isSome (l : List ℚ) (h : l ≠ []) :
    ∃ m, listMin? l = some m := by
  cases l with
  | nil => exact absurd rfl h
  | cons x xs => exact ⟨_, rfl⟩

/-- `computeRange` returns the max of the first timestamps and the min of
the last timestamps. -/
lemma computeRange_char (sources : List RawSeries) (s e : ℚ)
    (hc : computeRange sources = some (s, e)) :
    (∃ src ∈ sources, firstTs src = some s) ∧
    (∀ src ∈ sources, ∀ t, firstTs src = some t → t ≤ s) ∧
    (∃ src ∈ sources, lastTs src = some e) ∧
    (∀ src ∈ sources, ∀ t, lastTs src = some t → e ≤ t) := by
  unfold computeRange at hc
  split at hc
  · rename_i firsts lasts hfs hls
    split at hc
    · rename_i s' e' hmax hmin
      obtain ⟨rfl, rfl⟩ := Prod.mk.injEq .. ▸ Option.some.inj hc
      have hfeq : sources.map firstTs = firsts.map some :=
        allSome_eq_some _ _ hfs
      have hleq : sources.map lastTs = lasts.map some :=
        allSome_eq_some _ _ hls
      refine ⟨?_, ?_, ?_, ?_⟩
      · have hmem : s' ∈ firsts := listMax?_mem _ _ hmax
        have : some s' ∈ sources.map firstTs := by
          rw [hfeq]
          exact List.mem_map_of_mem some hmem
        obtain ⟨src, hsrc, hsome⟩ := List.mem_map.mp this
        exact ⟨src, hsrc, hsome⟩
      · intro src hsrc t ht
        have : some t ∈ firsts.map some := by
          rw [← hfeq]
          exact ht ▸ List.mem_map_of_mem firstTs hsrc
        have htf : t ∈ firsts := by
          obtain ⟨u, hu, huv⟩ := List.mem_map.mp this
          exact (Option.some.inj huv) ▸ hu
        exact listMax?_ub _ _ hmax t htf
      · have hmem : e' ∈ lasts := listMin?_mem _ _ hmin
        have : some e' ∈ sources.map lastTs := by
          rw [hleq]
          exact List.mem_map_of_mem some hmem
        obtain ⟨src, hsrc, hsome⟩ := List.mem_map.mp this
        exact ⟨src, hsrc, hsome⟩
      · intro src hsrc t ht
        have : some t ∈ lasts.map some := by
          rw [← hleq]
          exact ht ▸ List.mem_map_of_mem lastTs hsrc
        have htf : t ∈ lasts := by
          obtain ⟨u, hu, huv⟩ := List.mem_map.mp this
          exact (Option.some.inj huv) ▸ hu
        exact listMin?_lb _ _ hmin t htf
    · simp at hc
  · simp at hc

/-- `computeRange` succeeds on a non-empty list of non-empty sources. -/
lemma computeRange_isSome (sources : List RawSeries) (hne : sources ≠ [])
    (hsne : ∀ src ∈ sources, src.samples ≠ []) :
    ∃ s e, computeRange sources = some (s, e) := by
  obtain ⟨firsts, hfs⟩ := allSome_of_forall (sources.map firstTs) (by
    intro o ho
    obtain ⟨src, hsrc, rfl⟩ := List.mem_map.mp ho
    obtain ⟨p, hp⟩ := Option.isSome_iff_exists.mp
      (List.head?_isSome.mpr (hsne src hsrc))
    unfold firstTs
    rw [hp]
    rfl)
  obtain ⟨lasts, hls⟩ := allSome_of_forall (sources.map lastTs) (by
    intro o ho
    obtain ⟨src, hsrc, rfl⟩ := List.mem_map.mp ho
    obtain ⟨p, hp⟩ := Option.isSome_iff_exists.mp
      (List.getLast?_isSome.mpr (hsne src hsrc))
    unfold lastTs
    rw [hp]
    rfl)
  have hfne : firsts ≠ [] := by
    intro h
    subst h
    have := allSome_eq_some _ _ hfs
    simp at this
    exact hne this
  have hlne : lasts ≠ [] := by
    intro h
    subst h
    have := allSome_eq_some _ _ hls
    simp at this
    exact hne this
  obtain ⟨s, hmax⟩ := listMax?_isSome firsts hfne
  obtain ⟨e, hmin⟩ := listMin?_isSome lasts hlne
  refine ⟨s, e, ?_⟩
  unfold computeRange
  rw [hfs, hls]
  simp [hmax, hmin]

/-- The hourly grid of an hour-aligned range `[s, s + n]`: `n + 1` points,
`s` first, `e` last, the `k`-th point being `s + k`. -/
lemma gridPoints_spec (s e : ℚ) (n : ℕ) (he : e = s + (n : ℚ)) :
    (gridPoints s e).length = n + 1 ∧
    (gridPoints s e).head? = some s ∧
    (gridPoints s e).getLast? = some e ∧
    ∀ k : ℕ, k < n + 1 → (gridPoints s e)[k]? = some (s + (k : ℚ)) := by
  subst he
  have hse : s ≤ s + (n : ℚ) := le_add_of_nonneg_right (by positivity)
  have hfl : ⌊s + (n : ℚ) - s⌋ = (n : ℤ) := by
    rw [show s + (n : ℚ) - s = (n : ℚ) by ring]
    exact Int.floor_natCast n
  have hg : gridPoints s (s + (n : ℚ)) =
      (List.range (n + 1)).map (fun k : ℕ => s + (k : ℚ)) := by
    unfold gridPoints
    rw [if_pos hse, hfl, Int.toNat_natCast]
  have hget : ∀ k : ℕ, k < n + 1 →
      (gridPoints s (s + (n : ℚ)))[k]? = some (s + (k : ℚ)) := by
    intro k hk
    rw [hg, List.getElem?_map, List.getElem?_range hk]
    rfl
  refine ⟨?_, ?_, ?_, hget⟩
  · rw [hg]
    simp
  · rw [List.head?_eq_getElem?]
    have := hget 0 (by omega)
    simpa using this
  · rw [List.getLast?_eq_getElem?]
    have hlen : (gridPoints s (s + (n : ℚ))).length = n + 1 := by
      rw [hg]; simp
    rw [hlen]
    simpa using hget n (by omega)

/-- C3: for a non-empty set of sources each with non-empty samples, the
HourlyGrid range is `start` = max of first timestamps and `end` = min of
last timestamps, inclusive at both ends with a 1-hour step; in particular
the two sources covering hours `[0, 96]` and `[48, 216]` (i.e.
`[2024-01-01T00, 2024-01-05T00]` and `[2024-01-03T00, 2024-01-10T00]` in
hours since 2024-01-01T00) intersect to `[48, 96]`
(`[2024-01-03T00, 2024-01-05T00]`) with exactly 49 hourly points. -/
theorem grid_intersection_range :
    (∀ sources : List RawSeries, sources ≠ [] →
      (∀ src ∈ sources, src.samples ≠ []) →
      ∃ s e, computeRange sources = some (s, e) ∧
        (∃ src ∈ sources, firstTs src = some s) ∧
        (∀ src ∈ sources, ∀ t, firstTs src = some t → t ≤ s) ∧
        (∃ src ∈ sources, lastTs src = some e) ∧
        (∀ src ∈ sources, ∀ t, lastTs src = some t → e ≤ t) ∧
        (∀ n : ℕ, e = s + (n : ℚ) →
          (gridPoints s e).length = n + 1 ∧
          (gridPoints s e).head? = some s ∧
          (gridPoints s e).getLast? = some e ∧
          ∀ k : ℕ, k < n + 1 → (gridPoints s e)[k]? = some (s + (k : ℚ)))) ∧
    computeRange [⟨"market", "market_spy_close", [(0, 1), (96, 2)]⟩,
        ⟨"schumann", "schumann_power", [(48, 3), (216, 4)]⟩] =
      some (48, 96) ∧
    (gridPoints 48 96).length = 49 := by
  refine ⟨?_, by decide, by unfold gridPoints; norm_num; rfl⟩
  intro sources hne hsne
  obtain ⟨s, e, hc⟩ := computeRange_isSome sources hne hsne
  obtain ⟨h1, h2, h3, h4⟩ := computeRange_char sources s e hc
  exact ⟨s, e, hc, h1, h2, h3, h4, fun n hn => gridPoints_spec s e n hn⟩

/-- Witness for C3: the general range characterization applied to the two
concrete sources of the scenario. -/
theorem grid_intersection_range_witness :
    ∃ s e,
      computeRange [⟨"market", "market_spy_close", [(0, 1), (96, 2)]⟩,
          ⟨"schumann", "schumann_power", [(48, 3), (216, 4)]⟩] =
        some (s, e) ∧
      (∃ src ∈ [(⟨"market", "market_spy_close", [(0, 1), (96, 2)]⟩ :
          RawSeries), ⟨"schumann", "schumann_power", [(48, 3), (216, 4)]⟩],
        firstTs src = some s) ∧
      (∀ src ∈ [(⟨"market", "market_spy_close", [(0, 1), (96, 2)]⟩ :
          RawSeries), ⟨"schumann", "schumann_power", [(48, 3), (216, 4)]⟩],
        ∀ t, firstTs src = some t → t ≤ s) ∧
      (∃ src ∈ [(⟨"market", "market_spy_close", [(0, 1), (96, 2)]⟩ :
          RawSeries), ⟨"schumann", "schumann_power", [(48, 3), (216, 4)]⟩],
        lastTs src = some e) ∧
      (∀ src ∈ [(⟨"market", "market_spy_close", [(0, 1), (96, 2)]⟩ :
          RawSeries), ⟨"schumann", "schumann_power", [(48, 3), (216, 4)]⟩],
        ∀ t, lastTs src = some t → e ≤ t) ∧
      (∀ n : ℕ, e = s + (n : ℚ) →
        (gridPoints s e).length = n + 1 ∧
        (gridPoints s e).head? = some s ∧
        (gridPoints s e).getLast? = some e ∧
        ∀ k : ℕ, k < n + 1 → (gridPoints s e)[k]? = some (s + (k : ℚ))) :=
  grid_intersection_range.1
    [⟨"market", "market_spy_close", [(0, 1), (96, 2)]⟩,
      ⟨"schumann", "schumann_power", [(48, 3), (216, 4)]⟩]
    (by simp) (by intro src hsrc; fin_cases hsrc <;> simp)

/-- `align` unfolded on a successfully computed range. -/
lemma align_eq (sources : List (RawSeries × FillPolicy)) (minPoints : ℕ)
    (s e : ℚ) (hc : computeRange (sources.map Prod.fst) = some (s, e)) :
    align sources minPoints =
      if e < s ∨ (gridPoints s e).length < minPoints then
        .error .insufficientOverlap
      else
        .ok { grid := gridPoints s e
              columns := sources.map (fun sp =>
                { columnId := sp.1.columnId
                  sourceId := sp.1.sourceId
                  values := normalize sp.1.samples (gridPoints s e) sp.2 }) } := by
  unfold align
  rw [hc]

/-- C7: alignment fails with `InsufficientOverlap` exactly when the
intersected hourly range is too short — `start > end` (no temporal overlap)
or fewer than the configured minimum number of hourly points (default 24);
otherwise it succeeds with a MasterTable on the intersected grid whose
columns all have exactly the grid's length. -/
theorem alignment_insufficient_overlap
    (sources : List (RawSeries × FillPolicy)) (minPoints : ℕ) (s e : ℚ)
    (hc : computeRange (sources.map Prod.fst) = some (s, e)) :
    (align sources minPoints = .error .insufficientOverlap ↔
      e < s ∨ (gridPoints s e).length < minPoints) ∧
    (¬(e < s ∨ (gridPoints s e).length < minPoints) →
      ∃ t, align sources minPoints = .ok t ∧ t.grid = gridPoints s e ∧
        ∀ c ∈ t.columns, c.values.length = t.grid.length) := by
  rw [align_eq sources minPoints s e hc]
  by_cases hcond : e < s ∨ (gridPoints s e).length < minPoints
  · refine ⟨by simp [hcond], fun h => absurd hcond h⟩
  · constructor
    · simp [hcond]
    · intro _
      rw [if_neg hcond]
      refine ⟨_, rfl, rfl, ?_⟩
      intro c hcmem
      obtain ⟨sp, _, rfl⟩ := List.mem_map.mp hcmem
      simp [normalize]

/-- Witness for C7 at one concrete source spanning hours `[0, 3]` with the
minimum set to 2 points: the range is computed, alignment does not fail, and
the 4-point table is produced. -/
theorem alignment_insufficient_overlap_witness :
    (align [(⟨"market", "market_spy_close", [(0, 1), (3, 2)]⟩, .forwardFill)]
        2 = .error .insufficientOverlap ↔
      (3 : ℚ) < 0 ∨ (gridPoints 0 3).length < 2) ∧
    (¬((3 : ℚ) < 0 ∨ (gridPoints 0 3).length < 2) →
      ∃ t, align [(⟨"market", "market_spy_close", [(0, 1), (3, 2)]⟩,
          .forwardFill)] 2 = .ok t ∧ t.grid = gridPoints 0 3 ∧
        ∀ c ∈ t.columns, c.values.length = t.grid.length) :=
  alignment_insufficient_overlap
    [(⟨"market", "market_spy_close", [(0, 1), (3, 2)]⟩, .forwardFill)]
    2 0 3 (by decide)

/-! ## Scanner fixtures and lemmas -/

/-- Scan output decomposes into one `scanPair` per (market, env, lag). -/
lemma mem_scan_iff (t : MasterTable) (cfg : ScanConfig) (f : Finding) :
    f ∈ scan t cfg ↔ ∃ m ∈ marketCols t, ∃ e ∈ envCols t,
      ∃ lag ∈ cfg.lags,
        scanPair m e lag cfg.threshold cfg.minSampleSize = some f := by
  simp [scan, List.mem_flatMap, List.mem_filterMap]

/-- A (pair, lag) is retained exactly when the overlap passes the
minimum-sample gate and the coefficient exists and passes the threshold
gate. -/
lemma scanPair_isSome_iff (m e : AlignedColumn) (lag : ℕ) (θ : ℚ) (n : ℕ) :
    (∃ f, scanPair m e lag θ n = some f) ↔
      (n ≤ (shiftedPairs m.values e.values lag).length ∧
        ∃ c, pearsonSgnSq (shiftedPairs m.values e.values lag) = some c ∧
          θ ^ 2 ≤ |c|) := by
  unfold scanPair
  by_cases h1 : (shiftedPairs m.values e.values lag).length < n
  · simp only [h1, if_true]
    constructor
    · intro ⟨f, hf⟩; simp at hf
    · intro ⟨h, _⟩; omega
  · simp only [h1, if_false]
    rcases hp : pearsonSgnSq (shiftedPairs m.values e.values lag) with _ | c
    · simp
    · by_cases h2 : θ ^ 2 ≤ |c|
      · simp only [h2, if_true]
        exact ⟨fun _ => ⟨by omega, c, rfl, h2⟩, fun _ => ⟨_, rfl⟩⟩
      · simp only [h2, if_false]
        constructor
        · intro ⟨f, hf⟩; simp at hf
        · intro ⟨_, c', hc', hθ⟩
          obtain rfl := Option.some.inj hc'
          exact absurd hθ h2

/-- The fields of an emitted finding. -/
lemma scanPair_some_fields (m e : AlignedColumn) (lag : ℕ) (θ : ℚ) (n : ℕ)
    (f : Finding) (h : scanPair m e lag θ n = some f) :
    f.marketColumn = m.columnId ∧ f.envColumn = e.columnId ∧
    f.lagHours = lag ∧
    f.sampleSize = (shiftedPairs m.values e.values lag).length ∧
    f.kind = (if lag = 0 then .instant else .lagged) := by
  unfold scanPair at h
  split at h
  · exact absurd h (by simp)
  · split at h
    · exact absurd h (by simp)
    · split at h
      · obtain rfl := Option.some.inj h
        exact ⟨rfl, rfl, rfl, rfl, rfl⟩
      · exact absurd h (by simp)

/-- C1: for every MasterTable, (market, env) pair and configured lag, the
Scanner retains a finding exactly when both gates pass on the overlapping
non-missing sample — `sample_size ≥ min_sample_size` and the Pearson
coefficient exists (non-degenerate) with `|r| ≥ threshold` (stated on signed
squares as `|r·|r|| ≥ threshold²`); in particular a pair with exactly 15
overlapping points under `min_sample_size = 20` is discarded regardless of
the coefficient. -/
theorem scanner_gates :
    (∀ (t : MasterTable) (cfg : ScanConfig) (f : Finding),
      f ∈ scan t cfg ↔ ∃ m ∈ marketCols t, ∃ e ∈ envCols t,
        ∃ lag ∈ cfg.lags,
          scanPair m e lag cfg.threshold cfg.minSampleSize = some f) ∧
    (∀ (m e : AlignedColumn) (lag : ℕ) (θ : ℚ) (n : ℕ),
      (∃ f, scanPair m e lag θ n = some f) ↔
        (n ≤ (shiftedPairs m.values e.values lag).length ∧
          ∃ c, pearsonSgnSq (shiftedPairs m.values e.values lag) = some c ∧
            θ ^ 2 ≤ |c|)) ∧
    (∀ (m e : AlignedColumn) (lag : ℕ) (θ : ℚ),
      (shiftedPairs m.values e.values lag).length = 15 →
        scanPair m e lag θ 20 = none) := by
  refine ⟨mem_scan_iff, scanPair_isSome_iff, ?_⟩
  intro m e lag θ h15
  unfold scanPair
  rw [h15]
  norm_num

/-- The concrete market column used by the scanner witnesses. -/
def mcolA : AlignedColumn :=
  ⟨"market_spy_close", "market", [some 1, some 2, some 3, some 4]⟩

/-- The concrete environmental column used by the scanner witnesses. -/
def ecolA : AlignedColumn :=
  ⟨"schumann_power", "schumann", [some 1, some 2, some 3, some 4]⟩

/-- A concrete 2-column master table. -/
def tableA : MasterTable := ⟨[0, 1, 2, 3], [mcolA, ecolA]⟩

/-- A concrete Scanner configuration: threshold 0.3, minimum sample 2,
lags {0, 1}. -/
def cfgA : ScanConfig := ⟨3/10, 2, [0, 1]⟩

/-- The lag-0 finding the Scanner emits on `tableA`. -/
def findingA : Finding :=
  ⟨"market_spy_close", "schumann_power", 0, 1, 4, .instant⟩

/-- A 15-point market column. -/
def mcolB : AlignedColumn :=
  ⟨"market_spy_close", "market", (List.range 15).map (fun k => some (k : ℚ))⟩

/-- A 15-point environmental column. -/
def ecolB : AlignedColumn :=
  ⟨"schumann_power", "schumann",
    (List.range 15).map (fun k => some (k : ℚ))⟩

/-- Witness for C1: the gate characterization at the concrete table and
configuration, and the 15-point overlap discarded under minimum 20. -/
theorem scanner_gates_witness :
    (findingA ∈ scan tableA cfgA ↔ ∃ m ∈ marketCols tableA,
      ∃ e ∈ envCols tableA, ∃ lag ∈ cfgA.lags,
        scanPair m e lag cfgA.threshold cfgA.minSampleSize =
          some findingA) ∧
    ((∃ f, scanPair mcolA ecolA 0 (3/10) 2 = some f) ↔
      (2 ≤ (shiftedPairs mcolA.values ecolA.values 0).length ∧
        ∃ c, pearsonSgnSq (shiftedPairs mcolA.values ecolA.values 0) =
          some c ∧ (3/10 : ℚ) ^ 2 ≤ |c|)) ∧
    scanPair mcolB ecolB 0 (3/10) 20 = none :=
  ⟨scanner_gates.1 tableA cfgA findingA,
    scanner_gates.2.1 mcolA ecolA 0 (3/10) 2,
    scanner_gates.2.2 mcolB ecolB 0 (3/10) (by decide)⟩

/-- C2: the Scanner pairs `env[t]` with `market[t+lag]` — position `t` of
the shifted overlap reads the environmental series at `t` and the market
series at `t + lag`, so a positive lag tests whether the environmental value
predicts the market value `lag` hours later — and every emitted finding has
`kind = instant` exactly when `lag == 0` and `kind = lagged` otherwise. -/
theorem scanner_lag_pairing :
    (∀ (market env : List (Option ℚ)) (lag t : ℕ)
      (p : Option ℚ × Option ℚ),
      (env.zip (market.drop lag))[t]? = some p ↔
        (env[t]? = some p.1 ∧ market[t + lag]? = some p.2)) ∧
    (∀ (t : MasterTable) (cfg : ScanConfig) (f : Finding),
      f ∈ scan t cfg → (f.kind = .instant ↔ f.lagHours = 0)) := by
  constructor
  · intro market env lag t p
    rw [List.getElem?_zip_eq_some, List.getElem?_drop, Nat.add_comm]
  · intro t cfg f hf
    obtain ⟨m, _, e, _, lag, _, hsp⟩ := (mem_scan_iff t cfg f).mp hf
    obtain ⟨_, _, hlag, _, hkind⟩ := scanPair_some_fields m e lag _ _ f hsp
    rw [hlag, hkind]
    by_cases h0 : lag = 0
    · simp [h0]
    · simp [h0]

/-- The Scanner retains the lag-0 pair of `tableA` as `findingA`. -/
lemma scanPair_tableA :
    scanPair mcolA ecolA 0 cfgA.threshold cfgA.minSampleSize =
      some findingA := by
  have hsp : shiftedPairs mcolA.values ecolA.values 0 =
      [(1, 1), (2, 2), (3, 3), (4, 4)] := by decide
  have hpe : pearsonSgnSq [((1 : ℚ), (1 : ℚ)), (2, 2), (3, 3), (4, 4)] =
      some 1 := by
    unfold pearsonSgnSq varL covL fsts snds centered dot mean
    norm_num [abs_of_pos]
  unfold scanPair
  rw [hsp, hpe]
  norm_num [cfgA, findingA, mcolA, ecolA]

/-- The Scanner's output on `tableA` contains `findingA`. -/
lemma findingA_mem_scan : findingA ∈ scan tableA cfgA :=
  (mem_scan_iff tableA cfgA findingA).mpr
    ⟨mcolA, by decide, ecolA, by decide, 0, by decide, scanPair_tableA⟩

/-- Witness for C2: the pairing read off at position 0 with lag 1 on
concrete series, and the kind–lag equivalence on the concrete finding the
Scanner emits for `tableA`. -/
theorem scanner_lag_pairing_witness :
    ((([some 1, some 2, some 3] :
        List (Option ℚ)).zip (([some 9, some 8, none] :
          List (Option ℚ)).drop 1))[0]? = some (some 1, some 8) ↔
      (([some 1, some 2, some 3] : List (Option ℚ))[0]? = some (some 1) ∧
        ([some 9, some 8, none] : List (Option ℚ))[0 + 1]? =
          some (some 8))) ∧
    (findingA.kind = .instant ↔ findingA.lagHours = 0) :=
  ⟨scanner_lag_pairing.1 [some 9, some 8, none] [some 1, some 2, some 3]
      1 0 (some 1, some 8),
    scanner_lag_pairing.2 tableA cfgA findingA findingA_mem_scan⟩

/-! ## Affine invariance of the correlation coefficient -/

/-- Summing an affinely transformed list. -/
lemma sum_map_affine (a b : ℚ) (l : List ℚ) :
    (l.map (fun x => a * x + b)).sum = a * l.sum + b * l.length := by
  induction l with
  | nil => simp
  | cons x xs ih =>
    simp only [List.map_cons, List.sum_cons, ih, List.length_cons]
    push_cast
    ring

/-- The mean of an affinely transformed non-empty list. -/
lemma mean_affine (a b : ℚ) (l : List ℚ) (hne : l ≠ []) :
    mean (l.map (fun x => a * x + b)) = a * mean l + b := by
  have hlen : (l.length : ℚ) ≠ 0 := by
    have := List.length_pos.mpr hne
    positivity
  unfold mean
  rw [sum_map_affine, List.length_map]
  field_simp

/-- Re-centering an affinely transformed list scales the centered values. -/
lemma centered_affine (a b : ℚ) (l : List ℚ) (hne : l ≠ []) :
    centered (l.map (fun x => a * x + b)) =
      (centered l).map (fun x => a * x) := by
  unfold centered
  rw [List.map_map, List.map_map, mean_affine a b l hne]
  apply List.map_congr_left
  intro x _
  simp only [Function.comp_apply]
  ring

/-- Scaling the left argument of the pointwise product sum. -/
lemma zipWith_mul_map_left (a : ℚ) :
    ∀ u v : List ℚ,
      (List.zipWith (fun x y => x * y) (u.map (fun x => a * x)) v).sum =
        a * (List.zipWith (fun x y => x * y) u v).sum := by
  intro u
  induction u with
  | nil => intro v; simp
  | cons x xs ih =>
    intro v
    cases v with
    | nil => simp
    | cons y ys =>
      simp only [List.map_cons, List.zipWith_cons_cons, List.sum_cons, ih]
      ring

/-- Scaling the right argument of the pointwise product sum. -/
lemma zipWith_mul_map_right (a : ℚ) :
    ∀ u v : List ℚ,
      (List.zipWith (fun x y => x * y) u (v.map (fun x => a * x))).sum =
        a * (List.zipWith (fun x y => x * y) u v).sum := by
  intro u
  induction u with
  | nil => intro v; simp
  | cons x xs ih =>
    intro v
    cases v with
    | nil => simp
    | cons y ys =>
      simp only [List.map_cons, List.zipWith_cons_cons, List.sum_cons, ih]
      ring

/-- Covariance after an affine change of the first series. -/
lemma covL_affine (a b : ℚ) (xs ys : List ℚ) (hne : xs ≠ []) :
    covL (xs.map (fun x => a * x + b)) ys = a * covL xs ys := by
  unfold covL dot
  rw [centered_affine a b xs hne, zipWith_mul_map_left, List.length_map,
    mul_div_assoc]

/-- Variance after an affine change of the series. -/
lemma varL_affine (a b : ℚ) (xs : List ℚ) (hne : xs ≠ []) :
    varL (xs.map (fun x => a * x + b)) = a ^ 2 * varL xs := by
  unfold varL covL dot
  rw [centered_affine a b xs hne, zipWith_mul_map_left,
    zipWith_mul_map_right, List.length_map, ← mul_assoc, ← sq,
    mul_div_assoc]

/-- C5: the Scanner's correlation coefficient — the sample Pearson
coefficient over the overlapping sample, carried as its exact signed square
`r·|r|` — is invariant under an affine rescaling `x ↦ a·x + b` of the first
series with positive scale `a`; since `r ↦ r·|r|` is strictly monotone the
equality of signed squares is equivalent to `corr(a·x+b, y) = corr(x, y)`. -/
theorem pearson_affine_invariance (s : List (ℚ × ℚ)) (a b : ℚ)
    (ha : 0 < a) :
    pearsonSgnSq (s.map (fun p => (a * p.1 + b, p.2))) = pearsonSgnSq s := by
  rcases eq_or_ne s [] with rfl | hne
  · rfl
  have hxne : fsts s ≠ [] := by simp [fsts, hne]
  have hfst : fsts (s.map (fun p => (a * p.1 + b, p.2))) =
      (fsts s).map (fun x => a * x + b) := by
    simp only [fsts, List.map_map]
    rfl
  have hsnd : snds (s.map (fun p => (a * p.1 + b, p.2))) = snds s := by
    simp only [snds, List.map_map]
    rfl
  have ha2 : (a : ℚ) ^ 2 ≠ 0 := pow_ne_zero 2 (ne_of_gt ha)
  have hvx : varL (fsts (s.map (fun p => (a * p.1 + b, p.2)))) =
      a ^ 2 * varL (fsts s) := by
    rw [hfst]
    exact varL_affine a b (fsts s) hxne
  have hcv : covL (fsts (s.map (fun p => (a * p.1 + b, p.2))))
      (snds (s.map (fun p => (a * p.1 + b, p.2)))) =
        a * covL (fsts s) (snds s) := by
    rw [hfst, hsnd]
    exact covL_affine a b (fsts s) (snds s) hxne
  have hvzero : (a ^ 2 * varL (fsts s) = 0) ↔ (varL (fsts s) = 0) := by
    constructor
    · intro h
      rcases mul_eq_zero.mp h with h | h
      · exact absurd h ha2
      · exact h
    · intro h
      rw [h, mul_zero]
  unfold pearsonSgnSq
  rw [hvx, hcv, hsnd, List.length_map]
  simp only [hvzero]
  by_cases hcond : s.length = 0 ∨ varL (fsts s) = 0 ∨ varL (snds s) = 0
  · rw [if_pos hcond, if_pos hcond]
  · rw [if_neg hcond, if_neg hcond]
    congr 1
    rw [abs_mul, abs_of_pos ha]
    have h1 : a * covL (fsts s) (snds s) *
        (a * |covL (fsts s) (snds s)|) =
          a ^ 2 * (covL (fsts s) (snds s) * |covL (fsts s) (snds s)|) := by
      ring
    have h2 : a ^ 2 * varL (fsts s) * varL (snds s) =
        a ^ 2 * (varL (fsts s) * varL (snds s)) := by
      ring
    rw [h1, h2, mul_div_mul_left _ _ ha2]

/-- Witness for C5 at the concrete sample `[(1,1),(2,3)]` with the positive
rescaling `x ↦ 2·x + 5`. -/
theorem pearson_affine_invariance_witness :
    pearsonSgnSq ([((1 : ℚ), (1 : ℚ)), (2, 3)].map
        (fun p => (2 * p.1 + 5, p.2))) =
      pearsonSgnSq [((1 : ℚ), (1 : ℚ)), (2, 3)] :=
  pearson_affine_invariance [((1 : ℚ), (1 : ℚ)), (2, 3)] 2 5 (by norm_num)

/-- C9: the Scanner followed by the Ranker is deterministic — two runs on
equal inputs produce identical finding sequences — and the output is a
permutation of the scan results sorted by descending absolute coefficient
(descending `|coeffSq|`, equivalent under the strictly monotone signed
square), ties broken by ascending `lag_hours` and then by column-id lexical
order. -/
theorem ranker_deterministic_order (t₁ t₂ : MasterTable)
    (cfg₁ cfg₂ : ScanConfig) (ht : t₁ = t₂) (hcfg : cfg₁ = cfg₂) :
    scanAndRank t₁ cfg₁ = scanAndRank t₂ cfg₂ ∧
    List.Sorted findingRel (scanAndRank t₁ cfg₁) ∧
    (scanAndRank t₁ cfg₁).Perm (scan t₁ cfg₁) := by
  subst ht
  subst hcfg
  exact ⟨rfl, List.sorted_insertionSort findingRel _,
    List.perm_insertionSort findingRel _⟩

/-- Witness for C9: two runs on the same concrete table and configuration
give equal output, which is a sorted permutation of the scan results. -/
theorem ranker_deterministic_order_witness :
    scanAndRank tableA cfgA = scanAndRank tableA cfgA ∧
    List.Sorted findingRel (scanAndRank tableA cfgA) ∧
    (scanAndRank tableA cfgA).Perm (scan tableA cfgA) :=
  ranker_deterministic_order tableA tableA cfgA cfgA rfl rfl

end Chimera
